import Mathlib

/-!
# The DynamoDB product store of `src/services/dynamodb.go`

A shallow embedding of `DynamoDBStore` and its four operations `All`, `Get`,
`Put` and `Delete`.

* The database client (`*dynamodb.Client`) is a value of `Client σ`: four
  request functions over a service state `σ`, each returning either an error or
  an output together with the next service state.
* Every request the store sends is appended to `World.calls`, so the number and
  the contents of the round trips of an operation can be read off.
* The attribute-value encoder (`attributevalue.MarshalMap`, `UnmarshalMap`,
  `UnmarshalListOfMaps`) is a value of `Codec`; the record types `Product` and
  `ProductModel`, which are declared in another file of the package, are type
  parameters.
* `tableClient` is the service seen as one table, a map from id to item.
-/

set_option autoImplicit false

namespace Services

/-! ## SDK data: attribute values, items, errors -/

/-- The union `ddbtypes.AttributeValue` with its ten members. -/
inductive AttributeValue where
  | B (Value : List Nat)
  | BOOL (Value : Bool)
  | BS (Value : List (List Nat))
  | L (Value : List AttributeValue)
  | M (Value : List (String × AttributeValue))
  | N (Value : String)
  | NS (Value : List String)
  | NULL (Value : Bool)
  | S (Value : String)
  | SS (Value : List String)

/-- A Go `map[string]ddbtypes.AttributeValue`: an association list read by its
first entry for a key; the nil map is the empty list. -/
abbrev Item := List (String × AttributeValue)

/-- A Go `error` value: either an error of the SDK or of the service, or one
built by `fmt.Errorf` with the verb `%w`, which keeps the error it wraps. -/
inductive Error where
  | base (msg : String)
  | wrapped (msg : String) (err : Error)

/-- The message of an error, what its method `Error()` returns. -/
def Error.message : Error → String
  | .base msg => msg
  | .wrapped msg _ => msg

/-- The function `errors.Unwrap`. -/
def Unwrap : Error → Option Error
  | .base _ => none
  | .wrapped _ err => some err

/-- The call `fmt.Errorf(text + "%w", err)` for a format that ends in `%w`: the
message is the text followed by the message of `err`, and `err` is kept. -/
def Errorf (text : String) (err : Error) : Error :=
  .wrapped (text ++ err.message) err

/-! ## Requests and the client -/

/-- The fields of `dynamodb.ScanInput` that `All` sets; every other field keeps
its zero value. -/
structure ScanInput where
  TableName : String
  Limit : Option Nat
  ExclusiveStartKey : Item

/-- The fields of `dynamodb.ScanOutput` that `All` reads. -/
structure ScanOutput where
  Items : List Item
  LastEvaluatedKey : Item

/-- The fields of `dynamodb.GetItemInput` that `Get` sets. -/
structure GetItemInput where
  TableName : String
  Key : Item

/-- The field of `dynamodb.GetItemOutput` that `Get` reads. -/
structure GetItemOutput where
  Item : Item

/-- The fields of `dynamodb.PutItemInput` that `Put` sets. -/
structure PutItemInput where
  TableName : String
  Item : Item

/-- The fields of `dynamodb.DeleteItemInput` that `Delete` sets. -/
structure DeleteItemInput where
  TableName : String
  Key : Item

/-- One call of the database client. -/
inductive Request where
  | Scan (input : ScanInput)
  | GetItem (input : GetItemInput)
  | PutItem (input : PutItemInput)
  | DeleteItem (input : DeleteItemInput)

/-- The database client over a service state `σ`. -/
structure Client (σ : Type) where
  Scan : ScanInput → σ → Except Error ScanOutput × σ
  GetItem : GetItemInput → σ → Except Error GetItemOutput × σ
  PutItem : PutItemInput → σ → Except Error Unit × σ
  DeleteItem : DeleteItemInput → σ → Except Error Unit × σ

/-- The service state together with the calls made so far, oldest first. -/
structure World (σ : Type) where
  state : σ
  calls : List Request

/-- The struct `DynamoDBStore`. -/
structure DynamoDBStore (σ : Type) where
  client : Client σ
  tableName : String

/-- The three functions of the package `attributevalue` the store calls, for
the record types `ProductModel` (what `Put` encodes) and `Product` (what `Get`
and `All` decode into). The decoders fill the value they are handed and report
an error, as the Go functions do through their pointer argument; `zero` is the
literal `Product{}`. -/
structure Codec (ProductModel Product : Type) where
  MarshalMap : ProductModel → Except Error Item
  UnmarshalMap : Item → Product → Product × Option Error
  UnmarshalListOfMaps : List Item → List Product → List Product × Option Error
  zero : Product

/-- The struct `ProductRange`, as `All` uses it. -/
structure ProductRange (Product : Type) where
  Products : List Product
  Next : Option String

/-- How a call ends: it returns, or a failed type assertion panics. -/
inductive Outcome (α : Type) where
  | returned (value : α)
  | panicked

section Store

variable {σ ProductModel Product : Type}

/-- The call `d.client.Scan(ctx, input)`. -/
def callScan (d : DynamoDBStore σ) (input : ScanInput) (w : World σ) :
    Except Error ScanOutput × World σ :=
  let r := d.client.Scan input w.state
  (r.1, { state := r.2, calls := w.calls ++ [Request.Scan input] })

/-- The call `d.client.GetItem(ctx, input)`. -/
def callGetItem (d : DynamoDBStore σ) (input : GetItemInput) (w : World σ) :
    Except Error GetItemOutput × World σ :=
  let r := d.client.GetItem input w.state
  (r.1, { state := r.2, calls := w.calls ++ [Request.GetItem input] })

/-- The call `d.client.PutItem(ctx, input)`. -/
def callPutItem (d : DynamoDBStore σ) (input : PutItemInput) (w : World σ) :
    Except Error Unit × World σ :=
  let r := d.client.PutItem input w.state
  (r.1, { state := r.2, calls := w.calls ++ [Request.PutItem input] })

/-- The call `d.client.DeleteItem(ctx, input)`. -/
def callDeleteItem (d : DynamoDBStore σ) (input : DeleteItemInput) (w : World σ) :
    Except Error Unit × World σ :=
  let r := d.client.DeleteItem input w.state
  (r.1, { state := r.2, calls := w.calls ++ [Request.DeleteItem input] })

/-- The scan request `All` builds (lines 79 to 88): the table of the store, limit
20, and an exclusive start key only when a token is given. -/
def scanInput (tableName : String) (next : Option String) : ScanInput :=
  let input : ScanInput :=
    { TableName := tableName, Limit := some 20, ExclusiveStartKey := [] }
  match next with
  | some n => { input with ExclusiveStartKey := [("id", AttributeValue.S n)] }
  | none => input

/-- The key `Get` and `Delete` send: the map with the one entry `"id"`. -/
def idKey (id : String) : Item := [("id", AttributeValue.S id)]

/-- The method `DynamoDBStore.All`. -/
def All (d : DynamoDBStore σ) (av : Codec ProductModel Product) (next : Option String)
    (w : World σ) : Outcome (ProductRange Product × Option Error) × World σ :=
  let productRange : ProductRange Product := { Products := [], Next := none }
  let input := scanInput d.tableName next
  let r := callScan d input w
  match r.1 with
  | .error err =>
    (.returned (productRange, some (Errorf "failed to get items from DynamoDB: " err)), r.2)
  | .ok result =>
    let u := av.UnmarshalListOfMaps result.Items productRange.Products
    let productRange : ProductRange Product := { productRange with Products := u.1 }
    match u.2 with
    | some err =>
      (.returned (productRange, some (Errorf "failed to unmarshal data from DynamoDB: " err)),
        r.2)
    | none =>
      if result.LastEvaluatedKey.length > 0 then
        match result.LastEvaluatedKey.lookup "id" with
        | some key =>
          match key with
          | .S nextKey => (.returned ({ productRange with Next := some nextKey }, none), r.2)
          | _ => (.panicked, r.2)
        | none => (.returned (productRange, none), r.2)
      else (.returned (productRange, none), r.2)

/-- The method `DynamoDBStore.Get`. -/
def Get (d : DynamoDBStore σ) (av : Codec ProductModel Product) (id : String)
    (w : World σ) : (Option Product × Option Error) × World σ :=
  let r := callGetItem d
    { TableName := d.tableName, Key := idKey id } w
  match r.1 with
  | .error err => ((none, some (Errorf "failed to get item from DynamoDB: " err)), r.2)
  | .ok response =>
    if response.Item.length = 0 then ((none, none), r.2)
    else
      let product := av.zero
      let u := av.UnmarshalMap response.Item product
      match u.2 with
      | some err => ((none, some (Errorf "error getting item " err)), r.2)
      | none => ((some u.1, none), r.2)

/-- The method `DynamoDBStore.Put`. -/
def Put (d : DynamoDBStore σ) (av : Codec ProductModel Product) (product : ProductModel)
    (w : World σ) : Option Error × World σ :=
  match av.MarshalMap product with
  | .error err => (some (Errorf "unable to marshal product: " err), w)
  | .ok item =>
    let r := callPutItem d { TableName := d.tableName, Item := item } w
    match r.1 with
    | .error err => (some (Errorf "cannot put item: " err), r.2)
    | .ok _ => (none, r.2)

/-- The method `DynamoDBStore.Delete`. -/
def Delete (d : DynamoDBStore σ) (id : String) (w : World σ) : Option Error × World σ :=
  let r := callDeleteItem d
    { TableName := d.tableName, Key := idKey id } w
  match r.1 with
  | .error err => (some (Errorf "can't delete item: " err), r.2)
  | .ok _ => (none, r.2)

/-- The loop of a caller that lists the whole table: call `All`, keep the page,
and call `All` again with the returned token until the token is nil. At most
`fuel` calls are made; `none` when they do not reach the end, or when a call
fails or panics. -/
def listAll (d : DynamoDBStore σ) (av : Codec ProductModel Product) :
    Nat → Option String → World σ → Option (List Product)
  | 0, _, _ => none
  | fuel + 1, next, w =>
    match All d av next w with
    | (.returned (page, none), w') =>
      match page.Next with
      | none => some page.Products
      | some t => (listAll d av fuel (some t) w').map (fun l => page.Products ++ l)
    | _ => none

end Store

/-! ## The service as one table

The table is a map from id to item, kept as a list of entries in the order in
which a scan visits them; the partition key is the string attribute `"id"`. -/

/-- The table: its entries, each an id with the item stored under it. -/
abbrev Table := List (String × Item)

/-- The string a key or an item holds under `"id"`, if it holds one. -/
def keyOf (m : Item) : Option String :=
  match m.lookup "id" with
  | some (.S v) => some v
  | _ => none

/-- Store `item` under `k`: in the place of the entry for `k` when there is
one, as a new entry otherwise. -/
def Table.put (k : String) (item : Item) : Table → Table
  | [] => [(k, item)]
  | e :: rest => if e.1 = k then (k, item) :: rest else e :: Table.put k item rest

/-- Remove what is stored under `k`. -/
def Table.erase (k : String) (t : Table) : Table :=
  t.filter (fun e => decide (e.1 ≠ k))

/-- The entries a scan visits after the entry for `k`; none when the table has
no entry for `k`. -/
def Table.after (k : String) : Table → Table
  | [] => []
  | e :: rest => if e.1 = k then rest else Table.after k rest

/-- One page of a scan over the entries `rest` still to visit. The service
documents `Limit` as the number of items to evaluate: once it has processed
that many it stops and returns them with "a key in LastEvaluatedKey to apply in
a subsequent operation", and a key that is not empty "does not necessarily mean
that there is more data in the result set". So the page hands back the key of
its last entry whenever it holds as many entries as the limit, and no key when
the entries ran out before the limit. -/
def Table.page (limit : Option Nat) (rest : Table) : ScanOutput :=
  match limit with
  | none => { Items := rest.map (fun e => e.2), LastEvaluatedKey := [] }
  | some n =>
    let visited := rest.take n
    { Items := visited.map (fun e => e.2),
      LastEvaluatedKey :=
        if visited.length = n then
          match visited.getLast? with
          | some e => idKey e.1
          | none => []
        else [] }

/-- The entries a scan that starts from the token `next` has still to visit: all
of them without a token, those after the entry for the token with one. -/
def Table.rest (next : Option String) (t : Table) : Table :=
  match next with
  | none => t
  | some k => Table.after k t

/-- The error of a request that names another table. -/
def resourceNotFound : Error := .base "ResourceNotFoundException"

/-- The error of a request whose key or item has no string `"id"`. -/
def validation : Error := .base "ValidationException"

/-- The client of a service that holds the one table `name`: `GetItem` reads
the map, `PutItem` replaces what is under the id of the item, `DeleteItem`
removes it, `Scan` hands out a page. A request for another table, or one whose
key or item has no string `"id"`, is refused; the other checks of the service,
its capacity limits and the delay of its reads are left out. -/
def tableClient (name : String) : Client Table where
  Scan input t :=
    if input.TableName ≠ name then (.error resourceNotFound, t)
    else if input.ExclusiveStartKey.length = 0 then (.ok (Table.page input.Limit t), t)
    else
      match keyOf input.ExclusiveStartKey with
      | some k => (.ok (Table.page input.Limit (Table.after k t)), t)
      | none => (.error validation, t)
  GetItem input t :=
    if input.TableName ≠ name then (.error resourceNotFound, t)
    else
      match keyOf input.Key with
      | some k => (.ok { Item := (t.lookup k).getD [] }, t)
      | none => (.error validation, t)
  PutItem input t :=
    if input.TableName ≠ name then (.error resourceNotFound, t)
    else
      match keyOf input.Item with
      | some k => (.ok (), Table.put k input.Item t)
      | none => (.error validation, t)
  DeleteItem input t :=
    if input.TableName ≠ name then (.error resourceNotFound, t)
    else
      match keyOf input.Key with
      | some k => (.ok (), Table.erase k t)
      | none => (.error validation, t)

/-- The store over the table `name`. -/
def tableStore (name : String) : DynamoDBStore Table :=
  { client := tableClient name, tableName := name }

/-! ## A record type for the examples -/

/-- Modelled from the spec: the record types `Product` and `ProductModel`, which
the package declares outside `src/services/dynamodb.go`; the spec describes "a
record identified by a string `id`, with arbitrary additional attributes
persisted as a flat map of fields". A field holds an attribute value, or `none`
for a Go value whose encoding fails, such as one whose own marshaller reports
an error. -/
structure Record where
  id : String
  fields : List (String × Option AttributeValue)

/-- The literal `Record{}`. -/
def zeroRecord : Record := { id := "", fields := [] }

/-- The attribute values of the fields, or `none` when one has none. -/
def encodeFields : List (String × Option AttributeValue) → Option Item
  | [] => some []
  | (_, none) :: _ => none
  | (k, some v) :: rest => (encodeFields rest).map (fun m => (k, v) :: m)

/-- The error of the decoder for an attribute value of the kind `kind` that is
to go into a Go string. -/
def typeError (kind : String) : Error :=
  .base ("unmarshal failed, cannot unmarshal " ++ kind ++ " into Go value type string")

/-- The Go string an attribute decodes into: the text of a string or of a
number, the empty string for a null or for an attribute the item lacks; no other
kind decodes into a string. -/
def decodeString : Option AttributeValue → Except Error String
  | none => .ok ""
  | some (.S v) => .ok v
  | some (.N v) => .ok v
  | some (.NULL _) => .ok ""
  | some (.B _) => .error (typeError "binary")
  | some (.BOOL _) => .error (typeError "bool")
  | some (.BS _) => .error (typeError "binary set")
  | some (.L _) => .error (typeError "list")
  | some (.M _) => .error (typeError "map")
  | some (.NS _) => .error (typeError "number set")
  | some (.SS _) => .error (typeError "string set")

/-- The record an item decodes into: its `"id"` as a Go string, every other
attribute as a field; or the error of an `"id"` that does not decode. -/
def decodeRecord (m : Item) : Except Error Record :=
  let fields := (m.filter (fun e => decide (e.1 ≠ "id"))).map (fun e => (e.1, some e.2))
  match decodeString (m.lookup "id") with
  | .ok v => .ok { id := v, fields := fields }
  | .error err => .error err

/-- The records a list of items decodes into: the decoder grows the slice by
one element for each item and stops at the first item that does not decode,
whose element stays in the slice with its zero value. -/
def decodeRecords : List Item → List Record × Option Error
  | [] => ([], none)
  | m :: rest =>
    match decodeRecord m with
    | .error err => ([zeroRecord], some err)
    | .ok r => (r :: (decodeRecords rest).1, (decodeRecords rest).2)

/-- The encoder and decoders for `Record`. -/
def recordCodec : Codec Record Record where
  MarshalMap p :=
    match encodeFields p.fields with
    | some m => .ok (("id", AttributeValue.S p.id) :: m)
    | none => .error (.base "unsupported marshal type")
  UnmarshalMap m out :=
    match decodeRecord m with
    | .ok r => (r, none)
    | .error err => (out, some err)
  UnmarshalListOfMaps ms _ := decodeRecords ms
  zero := zeroRecord

/-- Two items hold the same attribute values: every attribute name leads to the
same value, or to none, in both. -/
def sameAttributes (a b : Item) : Prop :=
  ∀ name : String, a.lookup name = b.lookup name

/-! ## Values for the examples -/

/-- A client whose every request fails in transport with `err`. -/
def failingClient (err : Error) : Client Unit where
  Scan _ u := (.error err, u)
  GetItem _ u := (.error err, u)
  PutItem _ u := (.error err, u)
  DeleteItem _ u := (.error err, u)

/-- A client that answers every request with the same scan page and the same
item, whatever the request. -/
def cannedClient (page : ScanOutput) (item : Item) : Client Unit where
  Scan _ u := (.ok page, u)
  GetItem _ u := (.ok { Item := item }, u)
  PutItem _ u := (.ok (), u)
  DeleteItem _ u := (.ok (), u)

/-- The store over `failingClient`. -/
def failingStore (err : Error) : DynamoDBStore Unit :=
  { client := failingClient err, tableName := "products" }

/-- The store over `cannedClient`. -/
def cannedStore (page : ScanOutput) (item : Item) : DynamoDBStore Unit :=
  { client := cannedClient page item, tableName := "products" }

/-- The error of a request that timed out. -/
def timeout : Error := .base "request timed out"

/-- The product of the example in the spec, `{id: "p1", name: "Widget"}`. -/
def widget : Record := { id := "p1", fields := [("name", some (.S "Widget"))] }

/-- The item `widget` encodes to. -/
def widgetItem : Item := [("id", .S "p1"), ("name", .S "Widget")]

/-- A product with a field whose encoding fails. -/
def unencodable : Record := { id := "p2", fields := [("hook", none)] }

/-- An item whose `"id"` is a boolean, which does not decode into a record. -/
def flaggedItem : Item := [("id", .BOOL true)]


/-- A table that holds `p1` with a name and a price, and `p3`. -/
def pricedTable : Table :=
  [("p1", [("id", .S "p1"), ("name", .S "Gadget"), ("price", .N "5")]), ("p3", idKey "p3")]

/-- Twenty ids. -/
def twentyIds : List String :=
  ["p01", "p02", "p03", "p04", "p05", "p06", "p07", "p08", "p09", "p10",
   "p11", "p12", "p13", "p14", "p15", "p16", "p17", "p18", "p19", "p20"]

/-- Twenty-two ids. -/
def manyIds : List String := twentyIds ++ ["p21", "p22"]

/-- The table with one item, made of its id alone, for each of the ids. -/
def tableOf (ids : List String) : Table := ids.map (fun k => (k, idKey k))

/-- The table of the twenty ids followed by an entry whose item does not
decode. -/
def brokenTable : Table := tableOf twentyIds ++ [("p21", flaggedItem)]

/-- The record with the id and no other field. -/
def bare (k : String) : Record := { id := k, fields := [] }

/-- The record an item decodes into, the zero record when it does not decode. -/
def decoded (m : Item) : Record :=
  match decodeRecord m with
  | .ok r => r
  | .error _ => recordCodec.zero

/-- The world of a service state before any call. -/
def fresh {σ : Type} (state : σ) : World σ := { state := state, calls := [] }

/-! ## Lemmas on messages -/

/-- Two messages that differ at a position inside their fixed texts differ
whatever follows the texts. -/
theorem append_ne_of_getElem (s₁ s₂ a b : String) (i : Nat) (c₁ c₂ : Char)
    (h₁ : s₁.data[i]? = some c₁) (h₂ : s₂.data[i]? = some c₂) (hne : c₁ ≠ c₂) :
    s₁ ++ a ≠ s₂ ++ b := by
  intro h
  have key : ∀ (l₁ l₂ : List Char) (c : Char), l₁[i]? = some c → (l₁ ++ l₂)[i]? = some c := by
    intro l₁ l₂ c hc
    obtain ⟨hlt, _⟩ := List.getElem?_eq_some.mp hc
    rw [List.getElem?_append_left hlt]
    exact hc
  have hd : (s₁ ++ a).data[i]? = (s₂ ++ b).data[i]? := by rw [h]
  rw [String.data_append, String.data_append, key _ _ _ h₁, key _ _ _ h₂] at hd
  exact hne (Option.some.inj hd)

/-- The message `All` gives a decoding failure differs from the message it
gives a transport failure. -/
theorem all_messages_differ (e e' : Error) :
    (Errorf "failed to unmarshal data from DynamoDB: " e').message
      ≠ (Errorf "failed to get items from DynamoDB: " e).message := by
  simp only [Errorf, Error.message]
  exact append_ne_of_getElem _ _ _ _ 10 'u' 'g' (by decide) (by decide) (by decide)

/-- The message `Get` gives a decoding failure differs from the message it
gives a transport failure. -/
theorem get_messages_differ (e e' : Error) :
    (Errorf "error getting item " e').message
      ≠ (Errorf "failed to get item from DynamoDB: " e).message := by
  simp only [Errorf, Error.message]
  exact append_ne_of_getElem _ _ _ _ 0 'e' 'f' (by decide) (by decide) (by decide)

/-! ## Lemmas on the table -/

theorem keyOf_idKey (id : String) : keyOf (idKey id) = some id := by
  simp [keyOf, idKey, List.lookup]

theorem ne_nil_of_keyOf {m : Item} {k : String} (h : keyOf m = some k) : m.length ≠ 0 := by
  cases m with
  | nil => simp [keyOf, List.lookup] at h
  | cons a l => simp

theorem lookup_put_self (k : String) (item : Item) (t : Table) :
    (Table.put k item t).lookup k = some item := by
  induction t with
  | nil => simp [Table.put, List.lookup]
  | cons e rest ih =>
    by_cases h : e.1 = k
    · simp [Table.put, h, List.lookup]
    · have hb : (k == e.1) = false := by simpa using fun h' => h h'.symm
      simp only [Table.put, h, if_false]
      rw [show e = (e.1, e.2) from rfl, List.lookup_cons, hb]
      exact ih

theorem lookup_put_other (k j : String) (item : Item) (t : Table) (hj : j ≠ k) :
    (Table.put k item t).lookup j = t.lookup j := by
  induction t with
  | nil =>
    have hb : (j == k) = false := by simpa using hj
    simp [Table.put, List.lookup, hb]
  | cons e rest ih =>
    by_cases h : e.1 = k
    · have hb : (j == k) = false := by simpa using hj
      have hb' : (j == e.1) = false := by rw [h]; exact hb
      simp only [Table.put, h, if_true]
      rw [List.lookup_cons, hb, show e = (e.1, e.2) from rfl, List.lookup_cons, hb']
    · simp only [Table.put, h, if_false]
      rw [show e = (e.1, e.2) from rfl, List.lookup_cons, List.lookup_cons, ih]

theorem keys_put_of_mem (k : String) (item : Item) (t : Table) (h : k ∈ t.map Prod.fst) :
    (Table.put k item t).map Prod.fst = t.map Prod.fst := by
  induction t with
  | nil => simp at h
  | cons e rest ih =>
    by_cases he : e.1 = k
    · simp [Table.put, he]
    · have hmem : k ∈ rest.map Prod.fst := by
        simp only [List.map_cons, List.mem_cons] at h
        rcases h with h | h
        · exact absurd h.symm he
        · exact h
      simp [Table.put, he, ih hmem]

theorem lookup_eq_none_of_not_mem (k : String) (t : Table) (h : k ∉ t.map Prod.fst) :
    t.lookup k = none := by
  induction t with
  | nil => rfl
  | cons e rest ih =>
    simp only [List.map_cons, List.mem_cons, not_or] at h
    have hb : (k == e.1) = false := by simpa using h.1
    rw [show e = (e.1, e.2) from rfl, List.lookup_cons, hb]
    exact ih h.2

theorem not_mem_keys_erase (k : String) (t : Table) : k ∉ (Table.erase k t).map Prod.fst := by
  simp [Table.erase, List.mem_map, List.mem_filter]

theorem erase_erase (k : String) (t : Table) :
    Table.erase k (Table.erase k t) = Table.erase k t := by
  simp [Table.erase, List.filter_filter]

theorem lookup_erase_other (k j : String) (t : Table) (hj : j ≠ k) :
    (Table.erase k t).lookup j = t.lookup j := by
  induction t with
  | nil => rfl
  | cons e rest ih =>
    by_cases h : e.1 = k
    · have hb : (j == e.1) = false := by rw [h]; simpa using hj
      have : Table.erase k (e :: rest) = Table.erase k rest := by
        simp [Table.erase, h]
      rw [this, ih, show e = (e.1, e.2) from rfl, List.lookup_cons, hb]
    · have : Table.erase k (e :: rest) = e :: Table.erase k rest := by
        simp [Table.erase, h]
      rw [this, show e = (e.1, e.2) from rfl, List.lookup_cons, List.lookup_cons, ih]

theorem nodup_put (k : String) (item : Item) (t : Table)
    (h : (t.map Prod.fst).Nodup) : ((Table.put k item t).map Prod.fst).Nodup := by
  induction t with
  | nil => simp [Table.put]
  | cons e rest ih =>
    simp only [List.map_cons, List.nodup_cons] at h
    by_cases he : e.1 = k
    · simp only [Table.put, he, if_true, List.map_cons, List.nodup_cons]
      exact ⟨he ▸ h.1, h.2⟩
    · simp only [Table.put, he, if_false, List.map_cons, List.nodup_cons]
      refine ⟨?_, ih h.2⟩
      intro hin
      by_cases hk : k ∈ rest.map Prod.fst
      · rw [keys_put_of_mem k item rest hk] at hin
        exact h.1 hin
      · have hkeys : ∀ (r : Table), k ∉ r.map Prod.fst →
            (Table.put k item r).map Prod.fst = r.map Prod.fst ++ [k] := by
          intro r
          induction r with
          | nil => intro _; rfl
          | cons a r ihr =>
            intro hr
            simp only [List.map_cons, List.mem_cons, not_or] at hr
            have ha : ¬ a.1 = k := fun h' => hr.1 h'.symm
            simp only [Table.put, ha, if_false, List.map_cons, List.cons_append, ihr hr.2]
        rw [hkeys rest hk, List.mem_append] at hin
        rcases hin with hin | hin
        · exact h.1 hin
        · exact he (List.mem_singleton.mp hin)

theorem nodup_erase (k : String) (t : Table) (h : (t.map Prod.fst).Nodup) :
    ((Table.erase k t).map Prod.fst).Nodup :=
  List.Nodup.sublist (List.Sublist.map Prod.fst (List.filter_sublist t)) h

/-- The decoder of `Record` gives back the record the encoder was handed, when
every field has an attribute value and none is named `"id"`. -/
theorem record_round_trip (p : Record) (m : Item)
    (hfields : encodeFields p.fields = some m) (hnoid : ∀ f ∈ p.fields, f.1 ≠ "id") :
    recordCodec.MarshalMap p = .ok (("id", AttributeValue.S p.id) :: m)
    ∧ recordCodec.UnmarshalMap (("id", AttributeValue.S p.id) :: m) recordCodec.zero
      = (p, none) := by
  have hback : ∀ (fs : List (String × Option AttributeValue)) (m : Item),
      encodeFields fs = some m → (∀ f ∈ fs, f.1 ≠ "id") →
      (m.filter (fun e => decide (e.1 ≠ "id"))).map (fun e => (e.1, some e.2)) = fs := by
    intro fs
    induction fs with
    | nil =>
      intro m h _
      simp only [encodeFields, Option.some.injEq] at h
      rw [← h]
      rfl
    | cons f rest ih =>
      intro m h hno
      obtain ⟨k, v⟩ := f
      cases v with
      | none => simp [encodeFields] at h
      | some v =>
        simp only [encodeFields, Option.map_eq_some'] at h
        obtain ⟨m', hm', rfl⟩ := h
        have hk : k ≠ "id" := hno (k, some v) (List.mem_cons_self _ _)
        have hrest := ih m' hm' (fun f hf => hno f (List.mem_cons_of_mem _ hf))
        simp only [ne_eq, decide_not] at hrest
        simp [List.filter_cons, hk, hrest]
  constructor
  · simp [recordCodec, hfields]
  · have h := hback p.fields m hfields hnoid
    simp only [ne_eq, decide_not] at h
    simp [recordCodec, decodeRecord, decodeString, List.lookup, List.filter_cons, h]

/-- The fields the decoder makes of an item encode back to the item. -/
theorem encodeFields_decoded (m : Item) :
    encodeFields (m.map (fun e => (e.1, some e.2))) = some m := by
  induction m with
  | nil => rfl
  | cons e rest ih => simp [encodeFields, ih]

/-- Leaving out the entries named `"id"` changes no other attribute. -/
theorem lookup_filter_ne_id (m : Item) (j : String) (hj : j ≠ "id") :
    (m.filter (fun e => decide (e.1 ≠ "id"))).lookup j = m.lookup j := by
  induction m with
  | nil => rfl
  | cons e rest ih =>
    by_cases h : e.1 = "id"
    · have hb : (j == e.1) = false := by rw [h]; simpa using hj
      rw [show e = (e.1, e.2) from rfl, List.lookup_cons, hb]
      simp only [List.filter_cons, h, ne_eq, not_true, decide_False]
      exact ih
    · rw [show e = (e.1, e.2) from rfl]
      simp only [List.filter_cons, h, ne_eq, not_false_eq_true, decide_True, if_true]
      rw [List.lookup_cons, List.lookup_cons, ih]

/-- What the decoder of `Record` makes of the item of a record: the id, and as
fields the attributes not named `"id"`. -/
theorem decode_encode (id : String) (m : Item) :
    recordCodec.UnmarshalMap (("id", AttributeValue.S id) :: m) recordCodec.zero
      = ({ id := id,
           fields := (m.filter (fun e => decide (e.1 ≠ "id"))).map
             (fun e => (e.1, some e.2)) }, none) := by
  simp [recordCodec, decodeRecord, decodeString, List.lookup, List.filter_cons]

theorem after_append (pre : Table) (e : String × Item) (suf : Table)
    (h : e.1 ∉ pre.map Prod.fst) : Table.after e.1 (pre ++ e :: suf) = suf := by
  induction pre with
  | nil => simp [Table.after]
  | cons a pre ih =>
    simp only [List.map_cons, List.mem_cons, not_or] at h
    have ha : ¬ a.1 = e.1 := fun h' => h.1 h'.symm
    simp only [List.cons_append, Table.after, ha, if_false]
    exact ih h.2

/-- What `All` returns on the table when the items it is handed decode: the
first 20 of the entries still to visit, and as `Next` the id of the last of them
when they are 20. -/
theorem all_table {ProductModel Product : Type} (name : String)
    (av : Codec ProductModel Product) (dec : Item → Product) (next : Option String)
    (w : World Table)
    (hdec : av.UnmarshalListOfMaps (((Table.rest next w.state).take 20).map Prod.snd) []
      = ((((Table.rest next w.state).take 20).map Prod.snd).map dec, none)) :
    All (tableStore name) av next w
      = (.returned
          ({ Products := (((Table.rest next w.state).take 20).map Prod.snd).map dec,
             Next :=
              if ((Table.rest next w.state).take 20).length = 20 then
                ((Table.rest next w.state).take 20).getLast?.map Prod.fst
              else none }, none),
        { state := w.state,
          calls := w.calls ++ [Request.Scan (scanInput name next)] }) := by
  have hscan : (tableClient name).Scan (scanInput name next) w.state
      = (.ok (Table.page (some 20) (Table.rest next w.state)), w.state) := by
    cases next with
    | none => simp [tableClient, scanInput, Table.rest]
    | some k =>
      have hk : keyOf [("id", AttributeValue.S k)] = some k := keyOf_idKey k
      simp [tableClient, scanInput, Table.rest, hk]
  have hitems : (Table.page (some 20) (Table.rest next w.state)).Items
      = ((Table.rest next w.state).take 20).map Prod.snd := rfl
  simp only [All, callScan, tableStore, hscan, hitems, hdec]
  by_cases hlen : ((Table.rest next w.state).take 20).length = 20
  · cases hlast : ((Table.rest next w.state).take 20).getLast? with
    | none =>
      rw [List.getLast?_eq_none_iff] at hlast
      rw [hlast] at hlen
      simp at hlen
    | some e =>
      simp [Table.page, hlen, hlast, idKey, List.lookup]
  · have hlen' : ¬ 20 ≤ (Table.rest next w.state).length := by
      simpa [List.length_take] using hlen
    simp [Table.page, hlen']

/-- The loop over the pages of the table, started at any point of a scan with
the token of that point, returns the products of all the entries still to
visit, once it has one call more than the number of full pages left. -/
theorem listAll_table {ProductModel Product : Type} (name : String)
    (av : Codec ProductModel Product) (dec : Item → Product) (t : Table)
    (hnodup : (t.map Prod.fst).Nodup)
    (hdec : ∀ items : List Item, (∀ m ∈ items, m ∈ t.map Prod.snd) →
      av.UnmarshalListOfMaps items [] = (items.map dec, none)) :
    ∀ (fuel : Nat) (done rest : Table) (next : Option String) (calls : List Request),
      t = done ++ rest → Table.rest next t = rest → rest.length / 20 < fuel →
      listAll (tableStore name) av fuel next { state := t, calls := calls }
        = some ((rest.map Prod.snd).map dec) := by
  intro fuel
  induction fuel with
  | zero =>
    intro done rest next calls _ _ h
    omega
  | succ fuel ih =>
    intro done rest next calls ht hrest hfuel
    have hmem : ∀ m ∈ (rest.take 20).map Prod.snd, m ∈ t.map Prod.snd := by
      intro m hm
      obtain ⟨e, he, rfl⟩ := List.mem_map.mp hm
      have : e ∈ t := by
        rw [ht]
        exact List.mem_append_right _ (List.mem_of_mem_take he)
      exact List.mem_map_of_mem _ this
    have hall := all_table name av dec next { state := t, calls := calls }
      (by simp only [hrest]; exact hdec _ hmem)
    simp only [hrest] at hall
    simp only [listAll, hall]
    by_cases hlen : (rest.take 20).length = 20
    · have hne : rest.take 20 ≠ [] := by
        intro h
        rw [h] at hlen
        simp at hlen
      obtain ⟨pre, e, hpe⟩ : ∃ pre e, rest.take 20 = pre ++ [e] :=
        ⟨(rest.take 20).dropLast, (rest.take 20).getLast hne,
          (List.dropLast_append_getLast hne).symm⟩
      have hlast : (rest.take 20).getLast? = some e := by
        rw [hpe]
        simp
      have hsplit : rest = pre ++ e :: rest.drop 20 := by
        have := List.take_append_drop 20 rest
        rw [hpe] at this
        simpa using this.symm
      have ht' : t = (done ++ pre) ++ e :: rest.drop 20 := by
        rw [ht, List.append_assoc, ← hsplit]
      have hnot : e.1 ∉ (done ++ pre).map Prod.fst := by
        rw [ht', List.map_append, List.map_cons] at hnodup
        have := (List.nodup_append.mp hnodup).2.2
        intro hin
        exact this hin (List.mem_cons_self _ _)
      have hafter : Table.rest (some e.1) t = rest.drop 20 := by
        simp only [Table.rest]
        rw [ht']
        exact after_append _ e _ hnot
      have hlen20 : 20 ≤ rest.length := by
        simp only [List.length_take] at hlen
        omega
      have hfuel' : (rest.drop 20).length / 20 < fuel := by
        simp only [List.length_drop]
        omega
      have hrec := ih (done ++ rest.take 20) (rest.drop 20) (some e.1)
        (calls ++ [Request.Scan (scanInput name next)])
        (by rw [ht, List.append_assoc, List.take_append_drop]) hafter hfuel'
      simp only [hlen, hlast, if_true, Option.map_some', hrec]
      rw [← List.map_append, ← List.map_append, List.take_append_drop]
    · have hshort : rest.take 20 = rest := by
        apply List.take_of_length_le
        simp only [List.length_take] at hlen
        omega
      rw [hshort] at hlen
      simp only [hshort, hlen, if_false]

/-- The products of the ids of a table decode, each to a record with its id. -/
theorem decodeRecords_tableOf (ids : List String) :
    ∀ items : List Item, (∀ m ∈ items, m ∈ (tableOf ids).map Prod.snd) →
      recordCodec.UnmarshalListOfMaps items [] = (items.map decoded, none) := by
  intro items
  induction items with
  | nil => intro _; rfl
  | cons m rest ih =>
    intro h
    have hm : m ∈ (tableOf ids).map Prod.snd := h m (List.mem_cons_self _ _)
    have hrest := ih (fun x hx => h x (List.mem_cons_of_mem _ hx))
    simp only [tableOf, List.map_map, List.mem_map, Function.comp] at hm
    obtain ⟨k, _, rfl⟩ := hm
    have hk : decodeRecord (idKey k) = .ok (bare k) := by
      simp [decodeRecord, decodeString, idKey, List.lookup, bare]
    simp only [recordCodec] at hrest ⊢
    simp only [decodeRecords, hk, hrest, List.map_cons, decoded]

theorem decoded_tableOf (ids : List String) :
    ∀ e ∈ tableOf ids, (decoded e.2).id = e.1 := by
  intro e he
  simp only [tableOf, List.mem_map] at he
  obtain ⟨k, _, rfl⟩ := he
  simp [decoded, decodeRecord, decodeString, idKey, List.lookup]

theorem keys_tableOf (ids : List String) : (tableOf ids).map Prod.fst = ids := by
  induction ids with
  | nil => rfl
  | cons k rest ih =>
    simp only [tableOf, List.map_cons] at ih ⊢
    rw [ih]

/-! ## Failures -/

/-- C7: when the client call of an operation returns an error `e`, the operation
returns the error `fmt.Errorf` builds from its own text and `e`, which unwraps
to `e` and whose message is the text followed by the message of `e`; `All`
returns the empty range, `Get` the nil product; and the call that failed is the
only call made. `Put` reaches its call once the product is encoded. -/
theorem transport_failure_is_wrapped {σ ProductModel Product : Type}
    (d : DynamoDBStore σ) (av : Codec ProductModel Product) (w : World σ) (e : Error)
    (st : σ) :
    (∀ next, d.client.Scan (scanInput d.tableName next) w.state = (.error e, st) →
      All d av next w =
        (.returned ({ Products := [], Next := none },
            some (Errorf "failed to get items from DynamoDB: " e)),
          { state := st,
            calls := w.calls ++ [Request.Scan (scanInput d.tableName next)] }))
    ∧ (∀ id, d.client.GetItem { TableName := d.tableName, Key := idKey id } w.state
          = (.error e, st) →
      Get d av id w =
        ((none, some (Errorf "failed to get item from DynamoDB: " e)),
          { state := st,
            calls := w.calls
              ++ [Request.GetItem { TableName := d.tableName, Key := idKey id }] }))
    ∧ (∀ product item, av.MarshalMap product = .ok item →
      d.client.PutItem { TableName := d.tableName, Item := item } w.state = (.error e, st) →
      Put d av product w =
        (some (Errorf "cannot put item: " e),
          { state := st,
            calls := w.calls
              ++ [Request.PutItem { TableName := d.tableName, Item := item }] }))
    ∧ (∀ id, d.client.DeleteItem { TableName := d.tableName, Key := idKey id } w.state
          = (.error e, st) →
      Delete d id w =
        (some (Errorf "can't delete item: " e),
          { state := st,
            calls := w.calls
              ++ [Request.DeleteItem { TableName := d.tableName, Key := idKey id }] }))
    ∧ (∀ text, Unwrap (Errorf text e) = some e
        ∧ (Errorf text e).message = text ++ e.message) := by
  refine ⟨?_, ?_, ?_, ?_, ?_⟩
  · intro next h
    simp [All, callScan, h]
  · intro id h
    simp [Get, callGetItem, h]
  · intro product item hm h
    simp [Put, callPutItem, hm, h]
  · intro id h
    simp [Delete, callDeleteItem, h]
  · intro text
    exact ⟨rfl, rfl⟩

/-- C7 at a client that times out: each of the four operations returns its
wrapped error after the one call. -/
theorem transport_failure_is_wrapped_witness :
    All (failingStore timeout) recordCodec none
        (fresh ())
      = (.returned ({ Products := [], Next := none },
            some (Errorf "failed to get items from DynamoDB: " timeout)),
          { state := (), calls := [Request.Scan (scanInput "products" none)] })
    ∧ Get (failingStore timeout) recordCodec "p1"
        (fresh ())
      = ((none, some (Errorf "failed to get item from DynamoDB: " timeout)),
          { state := (),
            calls := [Request.GetItem { TableName := "products", Key := idKey "p1" }] })
    ∧ Put (failingStore timeout) recordCodec widget
        (fresh ())
      = (some (Errorf "cannot put item: " timeout),
          { state := (),
            calls := [Request.PutItem { TableName := "products", Item := widgetItem }] })
    ∧ Delete (failingStore timeout) "p1" (fresh ())
      = (some (Errorf "can't delete item: " timeout),
          { state := (),
            calls := [Request.DeleteItem { TableName := "products", Key := idKey "p1" }] }) :=
  have h := transport_failure_is_wrapped
    (failingStore timeout) recordCodec (fresh ())
    timeout ()
  ⟨h.1 none rfl, h.2.1 "p1" rfl, h.2.2.1 widget widgetItem rfl rfl, h.2.2.2.1 "p1" rfl⟩

/-- C9: when the scan succeeds and its items do not decode, `All` returns the
decoding error wrapped with its own text, and `Get` does so when the item that
came back (a non-empty one) does not decode; the wrapped error unwraps to the
decoding error, and its message differs from the message of every transport
failure of the same operation. -/
theorem decoding_failure_is_distinct {σ ProductModel Product : Type}
    (d : DynamoDBStore σ) (av : Codec ProductModel Product) (w : World σ) (e' : Error)
    (st : σ) :
    (∀ next out, d.client.Scan (scanInput d.tableName next) w.state = (.ok out, st) →
      (av.UnmarshalListOfMaps out.Items []).2 = some e' →
      (All d av next w).1 =
        .returned ({ Products := (av.UnmarshalListOfMaps out.Items []).1, Next := none },
          some (Errorf "failed to unmarshal data from DynamoDB: " e')))
    ∧ (∀ id out, d.client.GetItem { TableName := d.tableName, Key := idKey id } w.state
          = (.ok out, st) →
      out.Item.length ≠ 0 → (av.UnmarshalMap out.Item av.zero).2 = some e' →
      (Get d av id w).1 = (none, some (Errorf "error getting item " e')))
    ∧ Unwrap (Errorf "failed to unmarshal data from DynamoDB: " e') = some e'
    ∧ Unwrap (Errorf "error getting item " e') = some e'
    ∧ (∀ e, (Errorf "failed to unmarshal data from DynamoDB: " e').message
        ≠ (Errorf "failed to get items from DynamoDB: " e).message)
    ∧ (∀ e, (Errorf "error getting item " e').message
        ≠ (Errorf "failed to get item from DynamoDB: " e).message) := by
  refine ⟨?_, ?_, rfl, rfl, fun e => all_messages_differ e e', fun e => get_messages_differ e e'⟩
  · intro next out h hdec
    simp [All, callScan, h, hdec]
  · intro id out h hlen hdec
    simp only [Get, callGetItem, h, hdec]
    simp [hlen]

/-- C9 at a client that answers with an item whose id is a boolean: `All` and
`Get` return the wrapped decoding error; the page of `All` holds the zero
record the decoder left for the item. -/
theorem decoding_failure_is_distinct_witness :
    (All (cannedStore { Items := [flaggedItem], LastEvaluatedKey := [] } flaggedItem)
        recordCodec none (fresh ())).1
      = .returned ({ Products := [zeroRecord], Next := none },
          some (Errorf "failed to unmarshal data from DynamoDB: " (typeError "bool")))
    ∧ (Get (cannedStore { Items := [flaggedItem], LastEvaluatedKey := [] } flaggedItem)
        recordCodec "p1" (fresh ())).1
      = (none, some (Errorf "error getting item " (typeError "bool"))) :=
  have h := decoding_failure_is_distinct
    (cannedStore { Items := [flaggedItem], LastEvaluatedKey := [] } flaggedItem)
    recordCodec (fresh ()) (typeError "bool") ()
  ⟨h.1 none _ rfl rfl, h.2.1 "p1" _ rfl (by decide) rfl⟩

/-- C10: after a scan that succeeds and whose items decode into `products`:
without an `"id"` entry in the last evaluated key (an empty key has none) `All`
returns the products with a nil `Next`; with an `"id"` entry that is the string
`v` it returns them with `Next` pointing to `v`, whatever the items are; with an
`"id"` entry of another kind the type assertion panics. So `All` returns a nil
`Next` exactly when the key is empty or has no `"id"`, and it returns at all
exactly when the key has no `"id"` or a string one. -/
theorem next_follows_last_evaluated_key {σ ProductModel Product : Type}
    (d : DynamoDBStore σ) (av : Codec ProductModel Product) (next : Option String)
    (w : World σ) (out : ScanOutput) (st : σ) (products : List Product)
    (hscan : d.client.Scan (scanInput d.tableName next) w.state = (.ok out, st))
    (hdec : av.UnmarshalListOfMaps out.Items [] = (products, none)) :
    (out.LastEvaluatedKey.lookup "id" = none →
      (All d av next w).1 = .returned ({ Products := products, Next := none }, none))
    ∧ (∀ v, out.LastEvaluatedKey.lookup "id" = some (.S v) →
      (All d av next w).1 = .returned ({ Products := products, Next := some v }, none))
    ∧ (∀ key, out.LastEvaluatedKey.lookup "id" = some key → (∀ v, key ≠ .S v) →
      (All d av next w).1 = .panicked)
    ∧ ((∃ range err, (All d av next w).1 = .returned (range, err) ∧ range.Next = none)
        ↔ (out.LastEvaluatedKey.length = 0 ∨ out.LastEvaluatedKey.lookup "id" = none))
    ∧ ((All d av next w).1 ≠ .panicked
        ↔ (out.LastEvaluatedKey.lookup "id" = none
            ∨ ∃ v, out.LastEvaluatedKey.lookup "id" = some (.S v))) := by
  have hnone : out.LastEvaluatedKey.lookup "id" = none →
      (All d av next w).1 = .returned ({ Products := products, Next := none }, none) := by
    intro hl
    simp only [All, callScan, hscan, hdec, hl]
    split <;> rfl
  have hstr : ∀ v, out.LastEvaluatedKey.lookup "id" = some (.S v) →
      (All d av next w).1 = .returned ({ Products := products, Next := some v }, none) := by
    intro v hl
    have hpos : out.LastEvaluatedKey.length > 0 := by
      cases hk : out.LastEvaluatedKey with
      | nil => rw [hk] at hl; simp at hl
      | cons a l => simp
    simp [All, callScan, hscan, hdec, hl, hpos]
  have hpanic : ∀ key, out.LastEvaluatedKey.lookup "id" = some key → (∀ v, key ≠ .S v) →
      (All d av next w).1 = .panicked := by
    intro key hl hk
    have hpos : out.LastEvaluatedKey.length > 0 := by
      cases hk' : out.LastEvaluatedKey with
      | nil => rw [hk'] at hl; simp at hl
      | cons a l => simp
    simp only [All, callScan, hscan, hdec, hl, hpos]
    cases key with
    | S v => exact absurd rfl (hk v)
    | _ => rfl
  have hempty : out.LastEvaluatedKey.length = 0 → out.LastEvaluatedKey.lookup "id" = none := by
    intro h0
    rw [List.length_eq_zero.mp h0]
    rfl
  refine ⟨hnone, hstr, hpanic, ?_, ?_⟩
  · constructor
    · rintro ⟨range, err, hret, hnext⟩
      right
      cases hl : out.LastEvaluatedKey.lookup "id" with
      | none => rfl
      | some key =>
        by_cases hk : ∃ v, key = .S v
        · obtain ⟨v, rfl⟩ := hk
          rw [hstr v hl] at hret
          injection hret with hret
          injection hret with hr _
          rw [← hr] at hnext
          simp at hnext
        · rw [hpanic key hl (fun v hv => hk ⟨v, hv⟩)] at hret
          cases hret
    · rintro (h0 | hl)
      · exact ⟨_, _, hnone (hempty h0), rfl⟩
      · exact ⟨_, _, hnone hl, rfl⟩
  · constructor
    · intro hnp
      cases hl : out.LastEvaluatedKey.lookup "id" with
      | none => left; rfl
      | some key =>
        by_cases hk : ∃ v, key = .S v
        · obtain ⟨v, rfl⟩ := hk
          right; exact ⟨v, rfl⟩
        · exact absurd (hpanic key hl (fun v hv => hk ⟨v, hv⟩)) hnp
    · rintro (hl | ⟨v, hl⟩)
      · rw [hnone hl]; intro h; cases h
      · rw [hstr v hl]; intro h; cases h

/-- C10 at a scan page with one item and the last evaluated key `"p9"`: `Next`
points to `"p9"`, which is not the id of the item of the page. -/
theorem next_follows_last_evaluated_key_witness :
    (All (cannedStore { Items := [widgetItem], LastEvaluatedKey := idKey "p9" } []) recordCodec none (fresh ())).1
      = .returned ({ Products := [widget], Next := some "p9" }, none) :=
  (next_follows_last_evaluated_key
    (cannedStore { Items := [widgetItem], LastEvaluatedKey := idKey "p9" } []) recordCodec none (fresh ())
    { Items := [widgetItem], LastEvaluatedKey := idKey "p9" } () [widget] rfl rfl).2.1
    "p9" rfl

/-! ## Round trips -/

/-- C8, as the code has it: `All`, `Get` and `Delete` make exactly one call of
the client, for every input and whatever the call returns; `Put` makes exactly
one call when the product encodes, and when it does not encode `Put` returns
the wrapped encoding error without calling the client. -/
theorem one_call_each {σ ProductModel Product : Type}
    (d : DynamoDBStore σ) (av : Codec ProductModel Product) (w : World σ) :
    (∀ next, (All d av next w).2.calls
        = w.calls ++ [Request.Scan (scanInput d.tableName next)])
    ∧ (∀ id, (Get d av id w).2.calls
        = w.calls ++ [Request.GetItem { TableName := d.tableName, Key := idKey id }])
    ∧ (∀ id, (Delete d id w).2.calls
        = w.calls ++ [Request.DeleteItem { TableName := d.tableName, Key := idKey id }])
    ∧ (∀ product item, av.MarshalMap product = .ok item →
        (Put d av product w).2.calls
          = w.calls ++ [Request.PutItem { TableName := d.tableName, Item := item }])
    ∧ (∀ product err, av.MarshalMap product = .error err →
        Put d av product w = (some (Errorf "unable to marshal product: " err), w)) := by
  refine ⟨?_, ?_, ?_, ?_, ?_⟩
  · intro next
    simp only [All]
    split
    · rfl
    · split
      · rfl
      · split
        · split
          · split <;> rfl
          · rfl
        · rfl
  · intro id
    simp only [Get]
    split
    · rfl
    · split
      · rfl
      · split <;> rfl
  · intro id
    simp only [Delete]
    split <;> rfl
  · intro product item hm
    simp only [Put, hm]
    split <;> rfl
  · intro product err hm
    simp only [Put, hm]

/-- C8 on the table with the product of the spec: `Put` makes its one call, and
the product that does not encode is refused without a call. -/
theorem one_call_each_witness :
    (Put (tableStore "products") recordCodec widget (fresh [])).2.calls
      = [Request.PutItem { TableName := "products", Item := widgetItem }]
    ∧ Put (tableStore "products") recordCodec unencodable (fresh [])
      = (some (Errorf "unable to marshal product: " (.base "unsupported marshal type")),
          fresh []) :=
  have h := one_call_each (tableStore "products") recordCodec (fresh [])
  ⟨h.2.2.2.1 widget widgetItem rfl, h.2.2.2.2 unencodable _ rfl⟩

/-- C8 as stated fails for `Put`: a product that does not encode makes `Put`
return an error after no call of the client at all. -/
theorem put_unencodable_makes_no_call :
    (Put (tableStore "products") recordCodec unencodable (fresh [])).2.calls.length = 0
    ∧ (Put (tableStore "products") recordCodec unencodable (fresh [])).1
      = some (Errorf "unable to marshal product: " (.base "unsupported marshal type")) :=
  ⟨rfl, rfl⟩

/-! ## Get, Put and Delete on the table -/

/-- What `Get` returns on the table: the stored item when there is one. -/
theorem get_table {ProductModel Product : Type} (name : String)
    (av : Codec ProductModel Product) (id : String) (w : World Table) :
    Get (tableStore name) av id w
      = (match w.state.lookup id with
          | none => (none, none)
          | some item =>
            if item.length = 0 then (none, none)
            else
              match (av.UnmarshalMap item av.zero).2 with
              | some err => (none, some (Errorf "error getting item " err))
              | none => (some (av.UnmarshalMap item av.zero).1, none),
        { state := w.state,
          calls := w.calls ++ [Request.GetItem { TableName := name, Key := idKey id }] }) := by
  simp only [Get, callGetItem, tableStore, tableClient, keyOf_idKey, ne_eq, not_true,
    if_false]
  cases h : w.state.lookup id with
  | none => simp
  | some item =>
    by_cases hl : item.length = 0
    · simp [hl]
    · simp only [Option.getD_some, hl, if_false]
      split <;> rfl

/-- What `Delete` does on the table. -/
theorem delete_table (name id : String) (w : World Table) :
    Delete (tableStore name) id w
      = (none,
        { state := Table.erase id w.state,
          calls := w.calls
            ++ [Request.DeleteItem { TableName := name, Key := idKey id }] }) := by
  simp [Delete, callDeleteItem, tableStore, tableClient, keyOf_idKey]

/-- What `Put` does on the table with a product that encodes to an item with a
string id. -/
theorem put_table {ProductModel Product : Type} (name : String)
    (av : Codec ProductModel Product) (product : ProductModel) (w : World Table)
    (item : Item) (id : String)
    (hmarshal : av.MarshalMap product = .ok item) (hid : keyOf item = some id) :
    Put (tableStore name) av product w
      = (none,
        { state := Table.put id item w.state,
          calls := w.calls ++ [Request.PutItem { TableName := name, Item := item }] }) := by
  simp [Put, callPutItem, tableStore, tableClient, hmarshal, hid]

/-- C2: `Get` returns the nil product with the nil error, whatever the decoder
is, whenever `GetItem` succeeds with an empty item; on the table that is so for
every id the table holds nothing under, and for every id once it is deleted. -/
theorem get_absent {σ ProductModel Product : Type} (av : Codec ProductModel Product)
    (id : String) :
    (∀ (d : DynamoDBStore σ) (w : World σ) (out : GetItemOutput) (st : σ),
      d.client.GetItem { TableName := d.tableName, Key := idKey id } w.state = (.ok out, st) →
      out.Item.length = 0 →
      Get d av id w
        = ((none, none),
          { state := st,
            calls := w.calls
              ++ [Request.GetItem { TableName := d.tableName, Key := idKey id }] }))
    ∧ (∀ (name : String) (w : World Table), id ∉ w.state.map Prod.fst →
      (Get (tableStore name) av id w).1 = (none, none))
    ∧ (∀ (name : String) (w : World Table),
      (Get (tableStore name) av id (Delete (tableStore name) id w).2).1 = (none, none)) := by
  refine ⟨?_, ?_, ?_⟩
  · intro d w out st h hlen
    simp [Get, callGetItem, h, hlen]
  · intro name w hmem
    rw [get_table, lookup_eq_none_of_not_mem id w.state hmem]
  · intro name w
    rw [delete_table, get_table]
    simp only
    rw [lookup_eq_none_of_not_mem id _ (not_mem_keys_erase id w.state)]

/-- C2 on the example of the spec: after `Put` of the widget and `Delete("p1")`,
`Get("p1")` returns absent; so does `Get("p1")` on the empty table, and `Get`
over a client that answers with the empty item. -/
theorem get_absent_witness :
    (Get (tableStore "products") recordCodec "p1"
        (Delete (tableStore "products") "p1"
          (Put (tableStore "products") recordCodec widget (fresh [])).2).2).1 = (none, none)
    ∧ (Get (tableStore "products") recordCodec "p1" (fresh [])).1 = (none, none)
    ∧ (Get (cannedStore { Items := [], LastEvaluatedKey := [] } []) recordCodec "p1"
        (fresh ())).1 = (none, none) :=
  have h := get_absent (σ := Unit) recordCodec "p1"
  ⟨h.2.2 "products" _, h.2.1 "products" (fresh []) (by simp [fresh]),
    congrArg Prod.fst (h.1 (cannedStore { Items := [], LastEvaluatedKey := [] } [])
      (fresh ()) { Item := [] } () rfl rfl)⟩

/-- Over any encoder and decoder: when the product encodes to `item`, with the
string `id` under `"id"`, `Put` stores `item` and the `Get` of `id` that follows
hands exactly `item` to the decoder and returns what the decoder makes of it. -/
theorem get_decodes_what_put_stored {ProductModel Product : Type} (name : String)
    (av : Codec ProductModel Product) (product : ProductModel) (w : World Table)
    (item : Item) (id : String) (q : Product)
    (hmarshal : av.MarshalMap product = .ok item) (hid : keyOf item = some id)
    (hround : av.UnmarshalMap item av.zero = (q, none)) :
    (Put (tableStore name) av product w).1 = none
    ∧ (Get (tableStore name) av id (Put (tableStore name) av product w).2).1
      = (some q, none) := by
  rw [put_table name av product w item id hmarshal hid, get_table]
  simp only [lookup_put_self, ne_nil_of_keyOf hid, if_false, hround, true_and]

/-- C1: with the table as a map from id to item and the attribute-value encoding
of the record type: for every product and every table, when `Put` of the
product returns no error (so the product is one that encodes), the `Get` of the
id of the product that follows returns no error and a product `q` with the id
of the product and the same attribute values: `q` encodes, and to an item that
holds under every attribute name what the item of the product holds. When no
field of the product takes the name `"id"` of the key, `q` is the product
itself. -/
theorem put_then_get (name : String) (p : Record) (w : World Table)
    (hput : (Put (tableStore name) recordCodec p w).1 = none) :
    ∃ (q : Record) (item item' : Item),
      (Get (tableStore name) recordCodec p.id (Put (tableStore name) recordCodec p w).2).1
        = (some q, none)
      ∧ q.id = p.id
      ∧ recordCodec.MarshalMap p = .ok item
      ∧ recordCodec.MarshalMap q = .ok item'
      ∧ sameAttributes item' item
      ∧ ((∀ f ∈ p.fields, f.1 ≠ "id") → q = p) := by
  cases hf : encodeFields p.fields with
  | none =>
    simp [Put, recordCodec, hf] at hput
  | some m =>
    have hm : recordCodec.MarshalMap p = .ok (("id", AttributeValue.S p.id) :: m) := by
      simp [recordCodec, hf]
    have hid : keyOf (("id", AttributeValue.S p.id) :: m) = some p.id := by
      simp [keyOf, List.lookup]
    have hdec := decode_encode p.id m
    have hget := (get_decodes_what_put_stored name recordCodec p w _ p.id _ hm hid hdec).2
    refine ⟨_, _,
      ("id", AttributeValue.S p.id) :: m.filter (fun e => decide (e.1 ≠ "id")),
      hget, rfl, hm, ?_, ?_, ?_⟩
    · simp only [recordCodec, encodeFields_decoded]
    · intro a
      by_cases ha : a = "id"
      · rw [ha]
        simp [List.lookup]
      · have hb : (a == "id") = false := by simpa using ha
        rw [List.lookup_cons, List.lookup_cons, hb]
        exact lookup_filter_ne_id m a ha
    · intro hnoid
      have h := (record_round_trip p m hf hnoid).2
      exact (Prod.mk.inj (hdec.symm.trans h)).1

/-- C1 on the example of the spec: `Put` of `{id: "p1", name: "Widget"}` into the
empty table returns no error, and `Get("p1")` then returns that product. -/
theorem put_then_get_witness :
    (Put (tableStore "products") recordCodec widget (fresh [])).1 = none
    ∧ (Get (tableStore "products") recordCodec "p1"
        (Put (tableStore "products") recordCodec widget (fresh [])).2).1
      = (some widget, none) := by
  obtain ⟨q, item, item', hget, _, _, _, _, heq⟩ :=
    put_then_get "products" widget (fresh []) rfl
  rw [heq (by simp [widget])] at hget
  exact ⟨rfl, hget⟩

/-- C3: on the table, `Delete` of an id twice in a row returns the nil error
both times, whether or not the table held an item under the id; the table after
the second call is the table after the first, and holds nothing under the id.
Over any client, `Delete` returns the nil error whenever its `DeleteItem` call
does not fail. -/
theorem delete_idempotent (name id : String) (w : World Table) :
    (Delete (tableStore name) id w).1 = none
    ∧ (Delete (tableStore name) id (Delete (tableStore name) id w).2).1 = none
    ∧ (Delete (tableStore name) id (Delete (tableStore name) id w).2).2.state
      = (Delete (tableStore name) id w).2.state
    ∧ (Delete (tableStore name) id w).2.state.lookup id = none
    ∧ (∀ (σ : Type) (d : DynamoDBStore σ) (v : World σ) (st : σ),
      d.client.DeleteItem { TableName := d.tableName, Key := idKey id } v.state
        = (.ok (), st) →
      (Delete d id v).1 = none) := by
  refine ⟨?_, ?_, ?_, ?_, ?_⟩
  · rw [delete_table]
  · rw [delete_table, delete_table]
  · rw [delete_table, delete_table]
    exact erase_erase id w.state
  · rw [delete_table]
    exact lookup_eq_none_of_not_mem id _ (not_mem_keys_erase id w.state)
  · intro σ d v st h
    simp [Delete, callDeleteItem, h]

/-- C6: on the table, a `Put` of a product that encodes to `item`, with the
string `id` under `"id"`, sends one `PutItem` request made of the table name and
`item`, and returns no error; afterwards the table holds exactly `item` under
`id`, so an attribute that `item` lacks is not there whatever the old item had;
what is stored under every other id is as before, and when the table already
had an entry for `id` the ids of the table are as before. -/
theorem put_overwrites {ProductModel Product : Type} (name : String)
    (av : Codec ProductModel Product) (product : ProductModel) (w : World Table)
    (item : Item) (id : String)
    (hmarshal : av.MarshalMap product = .ok item) (hid : keyOf item = some id) :
    (Put (tableStore name) av product w).1 = none
    ∧ (Put (tableStore name) av product w).2.calls
      = w.calls ++ [Request.PutItem { TableName := name, Item := item }]
    ∧ (Put (tableStore name) av product w).2.state.lookup id = some item
    ∧ (∀ stored attr, (Put (tableStore name) av product w).2.state.lookup id = some stored →
        item.lookup attr = none → stored.lookup attr = none)
    ∧ (∀ j, j ≠ id →
        (Put (tableStore name) av product w).2.state.lookup j = w.state.lookup j)
    ∧ (id ∈ w.state.map Prod.fst →
        (Put (tableStore name) av product w).2.state.map Prod.fst
          = w.state.map Prod.fst) := by
  rw [put_table name av product w item id hmarshal hid]
  refine ⟨rfl, rfl, lookup_put_self id item w.state, ?_, ?_, ?_⟩
  · intro stored attr hs ha
    simp only [lookup_put_self] at hs
    rw [← Option.some.inj hs]
    exact ha
  · intro j hj
    exact lookup_put_other id j item w.state hj
  · intro hmem
    exact keys_put_of_mem id item w.state hmem

/-- C6 on a table that holds `p1` with a name and a price: the `Put` of the
widget, which has no price, leaves exactly the item of the widget under `p1`,
and the item under `p3` as it was. -/
theorem put_overwrites_witness :
    (Put (tableStore "products") recordCodec widget (fresh pricedTable)).2.state
      = [("p1", widgetItem), ("p3", idKey "p3")]
    ∧ (Put (tableStore "products") recordCodec widget
        (fresh pricedTable)).2.state.lookup "p1" = some widgetItem
    ∧ (Put (tableStore "products") recordCodec widget
        (fresh pricedTable)).2.state.lookup "p3" = some (idKey "p3") :=
  have h := put_overwrites "products" recordCodec widget (fresh pricedTable) widgetItem "p1"
    rfl rfl
  ⟨rfl, h.2.2.1, (h.2.2.2.2.1 "p3" (by decide)).trans rfl⟩

/-! ## Listing -/

/-- C4, as the code has it: on a table whose items decode, `All` without a token
sends one scan with limit 20 and no start key, and returns the products of the
first 20 entries, so at most 20; whenever the page is full (the table holds 20
entries or more) `Next` points to the id of the last product of the page,
whether or not more entries exist; when the table holds fewer than 20 entries
`Next` is nil. -/
theorem first_page {ProductModel Product : Type} (name : String)
    (av : Codec ProductModel Product) (dec : Item → Product) (pid : Product → String)
    (w : World Table)
    (hdec : ∀ items : List Item, (∀ m ∈ items, m ∈ w.state.map Prod.snd) →
      av.UnmarshalListOfMaps items [] = (items.map dec, none))
    (hpid : ∀ e ∈ w.state, pid (dec e.2) = e.1) :
    ∃ page : ProductRange Product,
      All (tableStore name) av none w
        = (.returned (page, none),
          { state := w.state,
            calls := w.calls
              ++ [Request.Scan
                    { TableName := name, Limit := some 20, ExclusiveStartKey := [] }] })
      ∧ page.Products = ((w.state.take 20).map Prod.snd).map dec
      ∧ page.Products.length ≤ 20
      ∧ (20 ≤ w.state.length →
          ∃ last, page.Products.getLast? = some last ∧ page.Next = some (pid last))
      ∧ (w.state.length < 20 → page.Next = none) := by
  have hmem : ∀ m ∈ (w.state.take 20).map Prod.snd, m ∈ w.state.map Prod.snd := by
    intro m hm
    obtain ⟨e, he, rfl⟩ := List.mem_map.mp hm
    exact List.mem_map_of_mem _ (List.mem_of_mem_take he)
  have hall := all_table name av dec none w (hdec _ hmem)
  simp only [Table.rest] at hall
  refine ⟨_, hall, rfl, ?_, ?_, ?_⟩
  · simp only [List.length_map, List.length_take]
    omega
  · intro hlen
    have hlen' : (w.state.take 20).length = 20 := by
      simp only [List.length_take]
      omega
    have hne : w.state.take 20 ≠ [] := by
      intro h
      rw [h] at hlen'
      simp at hlen'
    have hlast : (w.state.take 20).getLast? = some ((w.state.take 20).getLast hne) :=
      List.getLast?_eq_getLast _ hne
    have hin : (w.state.take 20).getLast hne ∈ w.state :=
      List.mem_of_mem_take (List.getLast_mem hne)
    refine ⟨dec ((w.state.take 20).getLast hne).2, ?_, ?_⟩
    · simp only [List.getLast?_map, hlast, Option.map_some']
    · simp only [hlen', if_true, hlast, Option.map_some', hpid _ hin]
  · intro hlen
    have hlen' : ¬ (w.state.take 20).length = 20 := by
      simp only [List.length_take]
      omega
    simp only [hlen', if_false]

/-- C4 on the table of the twenty ids: the page is full and `Next` is `"p20"`. -/
theorem first_page_witness :
    ∃ page : ProductRange Record,
      All (tableStore "products") recordCodec none (fresh (tableOf twentyIds))
        = (.returned (page, none),
          { state := tableOf twentyIds,
            calls := [Request.Scan
              { TableName := "products", Limit := some 20, ExclusiveStartKey := [] }] })
      ∧ page.Products = (((tableOf twentyIds).take 20).map Prod.snd).map decoded
      ∧ page.Products.length ≤ 20
      ∧ (20 ≤ (tableOf twentyIds).length →
          ∃ last, page.Products.getLast? = some last ∧ page.Next = some last.id)
      ∧ ((tableOf twentyIds).length < 20 → page.Next = none) :=
  first_page "products" recordCodec decoded (fun r => r.id) (fresh (tableOf twentyIds))
    (decodeRecords_tableOf twentyIds) (decoded_tableOf twentyIds)

/-- C4 as stated fails on a table of exactly 20 products: `All` without a token
returns all 20, so no more exist, and yet `Next` is not nil but `"p20"`; the
call with that token returns the empty page and the nil `Next`. -/
theorem full_page_has_next :
    (tableOf twentyIds).length = 20
    ∧ (All (tableStore "products") recordCodec none (fresh (tableOf twentyIds))).1
      = .returned ({ Products := twentyIds.map bare, Next := some "p20" }, none)
    ∧ (All (tableStore "products") recordCodec (some "p20")
        (fresh (tableOf twentyIds))).1
      = .returned ({ Products := [], Next := none }, none) :=
  ⟨rfl, rfl, rfl⟩

/-- C5, as the code has it: `All` with a token `tok` sends one scan with limit 20 and the exclusive
start key `{"id": tok}`. On a table with distinct ids whose items decode, left
as it is between the calls: when `All` without a token returns `page1` with
`Next` pointing to `tok`, then `tok` is the id of the last product of `page1`,
`All` with `tok` returns the products of the 20 entries that follow the first
20, so the two pages together are the products of the first 40 entries in scan
order and no id is on both pages; and the loop that follows the tokens until
`Next` is nil returns, given one call more than the number of full pages, the
products of all the entries, each once and with distinct ids. -/
theorem pages_continue {ProductModel Product : Type} (name : String)
    (av : Codec ProductModel Product) (dec : Item → Product) (pid : Product → String)
    (w : World Table) (page1 : ProductRange Product) (tok : String)
    (hnodup : (w.state.map Prod.fst).Nodup)
    (hdec : ∀ items : List Item, (∀ m ∈ items, m ∈ w.state.map Prod.snd) →
      av.UnmarshalListOfMaps items [] = (items.map dec, none))
    (hpid : ∀ e ∈ w.state, pid (dec e.2) = e.1)
    (hfirst : (All (tableStore name) av none w).1 = .returned (page1, none))
    (htok : page1.Next = some tok) :
    (∀ (σ : Type) (d : DynamoDBStore σ) (v : World σ),
      (All d av (some tok) v).2.calls
        = v.calls
          ++ [Request.Scan
                { TableName := d.tableName, Limit := some 20,
                  ExclusiveStartKey := [("id", AttributeValue.S tok)] }])
    ∧ (∃ last, page1.Products.getLast? = some last ∧ pid last = tok)
    ∧ (∃ page2 : ProductRange Product,
        (All (tableStore name) av (some tok) (All (tableStore name) av none w).2).1
          = .returned (page2, none)
        ∧ page2.Products = (((w.state.drop 20).take 20).map Prod.snd).map dec
        ∧ page1.Products ++ page2.Products = ((w.state.take 40).map Prod.snd).map dec
        ∧ (∀ p ∈ page1.Products, ∀ q ∈ page2.Products, pid p ≠ pid q))
    ∧ (∀ fuel, w.state.length / 20 < fuel →
        listAll (tableStore name) av fuel none w = some ((w.state.map Prod.snd).map dec))
    ∧ (((w.state.map Prod.snd).map dec).map pid).Nodup := by
  have hmem : ∀ m ∈ (w.state.take 20).map Prod.snd, m ∈ w.state.map Prod.snd := by
    intro m hm
    obtain ⟨e, he, rfl⟩ := List.mem_map.mp hm
    exact List.mem_map_of_mem _ (List.mem_of_mem_take he)
  have hall := all_table name av dec none w (hdec _ hmem)
  simp only [Table.rest] at hall
  have hpage : page1 =
      { Products := ((w.state.take 20).map Prod.snd).map dec,
        Next := if (w.state.take 20).length = 20 then
            (w.state.take 20).getLast?.map Prod.fst else none } := by
    rw [hall] at hfirst
    injection hfirst with hfirst
    injection hfirst with hfirst _
    exact hfirst.symm
  have hlen : (w.state.take 20).length = 20 := by
    by_contra hne
    rw [hpage] at htok
    simp only [hne, if_false] at htok
    cases htok
  have hne : w.state.take 20 ≠ [] := by
    intro h
    rw [h] at hlen
    simp at hlen
  obtain ⟨pre, e, hpe⟩ : ∃ pre e, w.state.take 20 = pre ++ [e] :=
    ⟨(w.state.take 20).dropLast, (w.state.take 20).getLast hne,
      (List.dropLast_append_getLast hne).symm⟩
  have hlast : (w.state.take 20).getLast? = some e := by
    rw [hpe]
    simp
  have hein : e ∈ w.state := by
    apply List.mem_of_mem_take (n := 20)
    rw [hpe]
    simp
  have htok' : e.1 = tok := by
    rw [hpage] at htok
    simp only [hlen, if_true, hlast, Option.map_some'] at htok
    exact Option.some.inj htok
  have hsplit : w.state = pre ++ e :: w.state.drop 20 := by
    have h1 := List.take_append_drop 20 w.state
    rw [hpe, List.append_assoc] at h1
    exact h1.symm
  have hnot : e.1 ∉ pre.map Prod.fst := by
    have hn := hnodup
    rw [hsplit, List.map_append, List.map_cons] at hn
    have := (List.nodup_append.mp hn).2.2
    intro hin
    exact this hin (List.mem_cons_self _ _)
  have hafter : Table.after tok w.state = w.state.drop 20 := by
    have h := after_append pre e (w.state.drop 20) hnot
    rw [← hsplit, htok'] at h
    exact h
  have hmem2 : ∀ m ∈ ((w.state.drop 20).take 20).map Prod.snd, m ∈ w.state.map Prod.snd := by
    intro m hm
    obtain ⟨e, he, rfl⟩ := List.mem_map.mp hm
    exact List.mem_map_of_mem _ (List.mem_of_mem_drop (List.mem_of_mem_take he))
  have hall2 := all_table name av dec (some tok) (All (tableStore name) av none w).2
    (by
      rw [hall]
      simp only [Table.rest, hafter]
      exact hdec _ hmem2)
  have hstate : (All (tableStore name) av none w).2.state = w.state := by rw [hall]
  simp only [Table.rest, hstate, hafter] at hall2
  have hkeys : ∀ (l : Table), (∀ e ∈ l, e ∈ w.state) →
      ((l.map Prod.snd).map dec).map pid = l.map Prod.fst := by
    intro l hl
    induction l with
    | nil => rfl
    | cons e rest ih =>
      simp only [List.map_cons]
      rw [hpid e (hl e (List.mem_cons_self _ _)),
        ih (fun x hx => hl x (List.mem_cons_of_mem _ hx))]
  refine ⟨?_, ?_, ?_, ?_, ?_⟩
  · intro σ d v
    simp only [All]
    split
    · rfl
    · split
      · rfl
      · split
        · split
          · split <;> rfl
          · rfl
        · rfl
  · refine ⟨dec e.2, ?_, ?_⟩
    · rw [hpage]
      simp only [List.getLast?_map, hlast, Option.map_some']
    · rw [hpid _ hein]
      exact htok'
  · refine ⟨_, congrArg Prod.fst hall2, rfl, ?_, ?_⟩
    · rw [hpage]
      simp only
      rw [← List.map_append, ← List.map_append, ← List.take_add]
    · intro p hp q hq hpq
      rw [hpage] at hp
      simp only [List.mem_map] at hp hq
      obtain ⟨_, ⟨e₁, he₁, rfl⟩, rfl⟩ := hp
      obtain ⟨_, ⟨e₂, he₂, rfl⟩, rfl⟩ := hq
      rw [hpid e₁ (List.mem_of_mem_take he₁),
        hpid e₂ (List.mem_of_mem_drop (List.mem_of_mem_take he₂))] at hpq
      have hn := hnodup
      rw [← List.take_append_drop 20 w.state, List.map_append] at hn
      exact (List.nodup_append.mp hn).2.2 (List.mem_map_of_mem _ he₁)
        (hpq ▸ List.mem_map_of_mem _ (List.mem_of_mem_take he₂))
  · intro fuel hfuel
    have h := listAll_table name av dec w.state hnodup hdec fuel [] w.state none w.calls
      rfl rfl hfuel
    exact h
  · rw [hkeys w.state (fun e he => he)]
    exact hnodup

/-- C5 as stated fails on a table, left as it is, that holds an item which does
not decode: `All` without a token returns the first 20 products and the token
`"p20"`, the ids of the table are distinct, and yet `All` with that token
returns the decoding error instead of a page, and the loop that follows the
tokens lists nothing, however many calls it may make. -/
theorem undecodable_item_stops_the_listing :
    (All (tableStore "products") recordCodec none (fresh brokenTable)).1
      = .returned ({ Products := twentyIds.map bare, Next := some "p20" }, none)
    ∧ (brokenTable.map Prod.fst).Nodup
    ∧ (All (tableStore "products") recordCodec (some "p20")
        (All (tableStore "products") recordCodec none (fresh brokenTable)).2).1
      = .returned ({ Products := [zeroRecord], Next := none },
          some (Errorf "failed to unmarshal data from DynamoDB: " (typeError "bool")))
    ∧ ∀ fuel, listAll (tableStore "products") recordCodec fuel none (fresh brokenTable)
        = none := by
  refine ⟨rfl, by decide, rfl, ?_⟩
  intro fuel
  cases fuel with
  | zero => rfl
  | succ fuel =>
    cases fuel with
    | zero => rfl
    | succ fuel => rfl

/-- C5 on the table of the twenty-two ids: the first page ends at `"p20"`, the
page with the token `"p20"` holds `p21` and `p22`, and two calls list all. -/
theorem pages_continue_witness :
    (∃ page2 : ProductRange Record,
      (All (tableStore "products") recordCodec (some "p20")
          (All (tableStore "products") recordCodec none (fresh (tableOf manyIds))).2).1
        = .returned (page2, none)
      ∧ page2.Products = ((((tableOf manyIds).drop 20).take 20).map Prod.snd).map decoded
      ∧ twentyIds.map bare ++ page2.Products
        = (((tableOf manyIds).take 40).map Prod.snd).map decoded
      ∧ (∀ p ∈ twentyIds.map bare, ∀ q ∈ page2.Products, p.id ≠ q.id))
    ∧ listAll (tableStore "products") recordCodec 2 none (fresh (tableOf manyIds))
      = some (((tableOf manyIds).map Prod.snd).map decoded) :=
  have h := pages_continue "products" recordCodec decoded (fun r => r.id)
    (fresh (tableOf manyIds)) { Products := twentyIds.map bare, Next := some "p20" } "p20"
    (by rw [fresh, keys_tableOf]; decide)
    (decodeRecords_tableOf manyIds) (decoded_tableOf manyIds) rfl rfl
  ⟨h.2.2.1, h.2.2.2.1 2 (by decide)⟩

end Services
